import Mathlib

/-!
# Verification of the Claude Code PreToolUse safety hook

Shallow embedding of `private_dot_claude/hooks/executable_safety-hook.py`.

Modelling conventions:
* Python strings are modelled as `List Char`.
* A rule's `regex` field is an arbitrary regex string that the hook only ever
  uses through `re.search(regex, text) is not None`; we embed that usage as an
  opaque boolean matcher `List Char → Bool` carried by the rule.
* The two regexes that are literal in the source (the safe-`rm`-target pattern
  in `check_deny` and the shell-wrapper pattern in `extract_inner_commands`)
  are embedded concretely, character class by character class.  Python's `\s`
  and `\w` are modelled over their ASCII ranges.
* `re.search` existence is embedded by a scanning matcher that attempts the
  pattern at every start position, with the backtracking alternatives of the
  pattern expressed as boolean disjunction, which is equivalent for the
  is-a-match-present question the hook asks.
* File-system and stdin effects are embedded by passing their results as
  explicit `Option` values (`none` = the corresponding Python exception).
-/

/-- Python `\s` over ASCII: space, tab, newline, carriage return,
vertical tab, form feed. -/
def pySpace (c : Char) : Bool :=
  c = ' ' || c = '\t' || c = '\n' || c = '\r' || c = '\x0b' || c = '\x0c'

/-- Python `\w` over ASCII: letters, digits, underscore. -/
def pyWord (c : Char) : Bool :=
  c.isAlphanum || c = '_'

/-- A nonempty run of whitespace, the language of `\s+`. -/
def Spaces1 (ws : List Char) : Prop :=
  ws ≠ [] ∧ ∀ c ∈ ws, pySpace c = true

/-- Whether the first character of a string is a word character
(`false` on the empty string), used to evaluate `\b`. -/
def headWord : List Char → Bool
  | [] => false
  | c :: _ => pyWord c

/-- Whether the last character of a string is a word character
(`false` on the empty string). -/
def lastWord (t : List Char) : Bool :=
  match t.getLast? with
  | some c => pyWord c
  | none => false

/-- Python `\b` evaluated at the position just after `prev`,
with `rest` the remainder of the string. -/
def wordBoundaryEnd (prev : Char) (rest : List Char) : Bool :=
  pyWord prev != headWord rest

/-- The word-boundary condition of the safe-target pattern: `\b` evaluated
right after the literal target `t`, where every character that can precede
`t` in the pattern (a space from `\s+` or the `/` of the directory group)
is a non-word character. -/
def endsAtWordBoundary (t post : List Char) : Bool :=
  lastWord t != headWord post

/-- Match a literal token then continue: the embedding of a literal regex
fragment followed by the rest of the pattern. -/
def litThenB (t : List Char) (k : List Char → Bool) : List Char → Bool
  | cs =>
    match t, cs with
    | [], _ => k cs
    | a :: t1, c :: cs1 => (a = c) && litThenB t1 k cs1
    | _ :: _, [] => false

/-- Match `\s+` then continue; the disjunction ranges over every number of
consumed whitespace characters, the backtracking choices of `\s+`. -/
def spacesThen (k : List Char → Bool) : List Char → Bool
  | [] => false
  | c :: cs => pySpace c && (k cs || spacesThen k cs)

/-- Match `(-rf|-fr|-r\s+-f|-f\s+-r)` then continue; the four alternatives
of the flag group, tried as in the source pattern. -/
def flagsThen (k : List Char → Bool) (cs : List Char) : Bool :=
  litThenB ['-', 'r', 'f'] k cs ||
  litThenB ['-', 'f', 'r'] k cs ||
  litThenB ['-', 'r'] (spacesThen (litThenB ['-', 'f'] k)) cs ||
  litThenB ['-', 'f'] (spacesThen (litThenB ['-', 'r'] k)) cs

/-- After at least one `\S` character: match the remaining `\S*` characters
of the `\S+` group, then the literal `/`, then continue. -/
def slashThen (k : List Char → Bool) : List Char → Bool
  | [] => false
  | c :: cs => ((c = '/') && k cs) || (!pySpace c && slashThen k cs)

/-- Match `\S+/` then continue: the directory-prefix group of the
safe-target pattern. -/
def dirThen (k : List Char → Bool) : List Char → Bool
  | [] => false
  | c :: cs => !pySpace c && slashThen k cs

/-- Match a literal token while tracking the last consumed character, then
continue with that character available; used for the target literal, whose
trailing `\b` needs the preceding character. -/
def litThen (t : List Char) (k : Char → List Char → Bool) : Char → List Char → Bool
  | prev, cs =>
    match t, cs with
    | [], _ => k prev cs
    | a :: t1, c :: cs1 => (a = c) && litThen t1 k c cs1
    | _ :: _, [] => false

/-- Match the literal target followed by `\b`, given the character preceding
the target in the candidate match. -/
def targetThen (t : List Char) (prev : Char) (cs : List Char) : Bool :=
  litThen t wordBoundaryEnd prev cs

/-- Match `(\S+/)?<target>\b`: either the target directly (preceded in the
pattern by a `\s+` character) or a directory prefix then the target. -/
def safeRmTail (t : List Char) (cs : List Char) : Bool :=
  targetThen t ' ' cs || dirThen (targetThen t '/') cs

/-- Attempt the whole pattern `rm\s+(-rf|-fr|-r\s+-f|-f\s+-r)\s+(\S+/)?<t>\b`
at the start of `cs`. -/
def safeRmAt (t : List Char) (cs : List Char) : Bool :=
  litThenB ['r', 'm'] (spacesThen (flagsThen (spacesThen (safeRmTail t)))) cs

/-- The embedding of
`re.search(rf"rm\s+(-rf|-fr|-r\s+-f|-f\s+-r)\s+(\S+/)?{re.escape(target)}\b", command)`
being a match: try the pattern at every start position. -/
def searchSafeRm (t : List Char) : List Char → Bool
  | [] => safeRmAt t []
  | c :: cs => safeRmAt t (c :: cs) || searchSafeRm t cs

/-- A deny rule from `safety-rules.json`: `regex` is embedded by the boolean
predicate `fun s => re.search(regex, s) is not None`. -/
structure DenyRule where
  regex : List Char → Bool
  reason : List Char

/-- A warn rule (`warn_commands` entry, or `warn_files` entry whose pattern
field plays the role of the regex). -/
structure WarnRule where
  regex : List Char → Bool
  message : List Char

/-- The rule set loaded by `load_rules`; the optional fields default to empty
as the `.get(..., [])` calls in the source do. -/
structure Rules where
  deny : List DenyRule
  warn_commands : List WarnRule
  warn_files : List WarnRule
  safe_rm_targets : List (List Char)

/-- The reason string that triggers the allowlist special case in
`check_deny`. -/
def massReason : List Char := "Mass recursive deletion".toList

/-- The inner loop `for target in safe_targets: if re.search(...): return None`
of `check_deny`: some allowlisted target is recognised in the command. -/
def overrideApplies (safe : List (List Char)) (cmd : List Char) : Bool :=
  safe.any (fun t => searchSafeRm t cmd)

/-- The `for rule in rules["deny"]` loop of `check_deny`. -/
def denyFirst (cmd : List Char) (safe : List (List Char)) : List DenyRule → Option (List Char)
  | [] => none
  | rule :: rest =>
    if rule.regex cmd then
      if rule.reason = massReason then
        if overrideApplies safe cmd then none else some rule.reason
      else some rule.reason
    else denyFirst cmd safe rest

/-- `check_deny`: reason of the first matching deny rule, with the safe-target
special case for the mass-recursive-deletion rule; `none` means not denied. -/
def check_deny (cmd : List Char) (rules : Rules) : Option (List Char) :=
  denyFirst cmd rules.safe_rm_targets rules.deny

example : searchSafeRm "node_modules".toList "rm -rf node_modules".toList = true := by decide

example : searchSafeRm "node_modules".toList "rm -rf /".toList = false := by decide

example : searchSafeRm "node_modules".toList "rm -rf ./node_modules".toList = true := by decide

example : searchSafeRm "node_modules".toList "rm -rf xnode_modules".toList = false := by decide

/-- Match the `(?:ba)?sh` head of the wrapper pattern
`(?:ba)?sh\s+-c\s+(['"])(.*?)\1`; the two spellings differ in their first
character, so the greedy optional group is deterministic. -/
def matchShTok : List Char → Option (List Char)
  | 'b' :: 'a' :: 's' :: 'h' :: rest => some rest
  | 's' :: 'h' :: rest => some rest
  | _ => none

/-- Consume `\s+` greedily; valid without backtracking because every regex
token following a `\s+` in the wrapper pattern is a non-space character. -/
def dropSpaces1 : List Char → Option (List Char)
  | [] => none
  | c :: cs => if pySpace c then some (cs.dropWhile pySpace) else none

/-- Consume the lazy body `(.*?)` up to the first closing quote `q`;
`.` does not match a newline.  Returns the body and the rest of the input
after the closing quote. -/
def takeBody (q : Char) : List Char → Option (List Char × List Char)
  | [] => none
  | c :: cs =>
    if c = q then some ([], cs)
    else if c = '\n' then none
    else
      match takeBody q cs with
      | some (b, r) => some (c :: b, r)
      | none => none

/-- Match the literal `-c` of the wrapper pattern. -/
def matchDashC : List Char → Option (List Char)
  | '-' :: 'c' :: r => some r
  | _ => none

/-- Match the opening quote `(['"])` then the lazy body and the
backreferenced closing quote. -/
def matchQuote : List Char → Option (List Char × List Char)
  | [] => none
  | q :: r => if q = '\'' ∨ q = '"' then takeBody q r else none

/-- Attempt the wrapper pattern at the start of `cs`; on success return the
captured body (group 2) and the input remaining after the match. -/
def matchWrapperAt (cs : List Char) : Option (List Char × List Char) :=
  (matchShTok cs).bind fun r1 =>
  (dropSpaces1 r1).bind fun r2 =>
  (matchDashC r2).bind fun r3 =>
  (dropSpaces1 r3).bind fun r4 =>
  matchQuote r4

/-- The `re.finditer` scan of `extract_inner_commands`: try the pattern at
each position, left to right; after a match, continue after the match
(non-overlapping).  The fuel argument, instantiated with the input length,
makes the recursion structural; every step consumes at least one character. -/
def extractFuel : Nat → List Char → List (List Char)
  | 0, _ => []
  | _ + 1, [] => []
  | n + 1, c :: rest =>
    match matchWrapperAt (c :: rest) with
    | some (body, after) => body :: extractFuel n after
    | none => extractFuel n rest

/-- `extract_inner_commands`: bodies of the `sh -c '...'` / `bash -c "..."`
wrappers found in the command, in order of first appearance. -/
def extract_inner_commands (command : List Char) : List (List Char) :=
  extractFuel command.length command

/-- The verdict of one hook invocation: `deny` and `warn` correspond to
`output_deny` / `output_warn` being called; `allow` writes no output. -/
inductive Verdict where
  | deny (reason : List Char)
  | warn (message : List Char)
  | allow
deriving DecidableEq

/-- Python truthiness of the `str | None` returned by `check_deny`: the
`if reason:` tests of `check_bash` are false for `None` and for the empty
string alike. -/
def truthyReason : Option (List Char) → Bool
  | some (_ :: _) => true
  | _ => false

/-- The `for inner in extract_inner_commands(command)` loop of `check_bash`:
reason of the first inner command whose deny check returns a truthy reason
(`if reason:` lets both `None` and an empty reason fall through to the next
inner command). -/
def firstInnerDeny (rules : Rules) : List (List Char) → Option (List Char)
  | [] => none
  | inner :: rest =>
    match check_deny inner rules with
    | some (c :: cs) => some (c :: cs)
    | _ => firstInnerDeny rules rest

/-- A `for warn in ...: if re.search(warn[...], text): ...; return` loop:
message of the first matching warn rule. -/
def firstWarn (text : List Char) : List WarnRule → Option (List Char)
  | [] => none
  | w :: rest => if w.regex text then some w.message else firstWarn text rest

/-- The suffix appended to a deny reason found inside a shell wrapper. -/
def wrapperSuffix : List Char := " (inside shell wrapper)".toList

/-- `check_bash`: deny on the full command (`if reason:`, so only a truthy
reason fires), else deny on the first truthily denied inner command with the
wrapper suffix, else warn on the full command only, else allow. -/
def check_bash (command : List Char) (rules : Rules) : Verdict :=
  match check_deny command rules with
  | some (c :: cs) => .deny (c :: cs)
  | _ =>
    match firstInnerDeny rules (extract_inner_commands command) with
    | some reason => .deny (reason ++ wrapperSuffix)
    | none =>
      match firstWarn command rules.warn_commands with
      | some m => .warn m
      | none => .allow

/-- `check_file`: warn on the first matching `warn_files` rule, else allow. -/
def check_file (file_path : List Char) (rules : Rules) : Verdict :=
  match firstWarn file_path rules.warn_files with
  | some m => .warn m
  | none => .allow

/-- The successfully parsed input envelope: `tool_name`, and the results of
`tool_input.get("command", "")` and `tool_input.get("file_path", "")`
(a missing entry is the empty string, as in the source). -/
structure HookInput where
  tool_name : List Char
  command : List Char
  file_path : List Char

/-- The `if tool_name == ...` chain of `main` after the rules are loaded. -/
def dispatch (inp : HookInput) (rules : Rules) : Verdict :=
  if inp.tool_name = "Bash".toList then
    if inp.command ≠ [] then check_bash inp.command rules else .allow
  else if inp.tool_name = "Read".toList ∨ inp.tool_name = "Edit".toList ∨
      inp.tool_name = "Write".toList then
    if inp.file_path ≠ [] then check_file inp.file_path rules else .allow
  else .allow

/-- Outcome of the whole process: `emit v` is a clean exit (status 0) having
written the rendering of `v` (nothing, for `allow`); `crash` is an uncaught
exception, as raised by a failing `load_rules`. -/
inductive ProcResult where
  | emit (v : Verdict)
  | crash
deriving DecidableEq

/-- `main`: the stdin parse result comes first (`none` = `json.load` raised,
handled by `sys.exit(0)`); only then is `load_rules` run (`none` = the rule
file was missing, unreadable or invalid, an uncaught exception); only then is
the tool kind classified. -/
def runHook (parsed : Option HookInput) (loaded : Option Rules) : ProcResult :=
  match parsed with
  | none => .emit .allow
  | some inp =>
    match loaded with
    | none => .crash
    | some rules => .emit (dispatch inp rules)

example :
    extract_inner_commands "sh -c 'rm -rf /important'".toList =
      ["rm -rf /important".toList] := by decide

example : extract_inner_commands "git status".toList = [] := by decide

example :
    extract_inner_commands "bash -c \"echo hi\" && sh -c 'ls'".toList =
      ["echo hi".toList, "ls".toList] := by decide

example : extract_inner_commands "bash -c 'oops".toList = [] := by decide

/-- The language of the flag group `(-rf|-fr|-r\s+-f|-f\s+-r)`. -/
def FlagTok (fl : List Char) : Prop :=
  fl = ['-', 'r', 'f'] ∨ fl = ['-', 'f', 'r'] ∨
  (∃ ws, Spaces1 ws ∧ fl = ['-', 'r'] ++ ws ++ ['-', 'f']) ∨
  (∃ ws, Spaces1 ws ∧ fl = ['-', 'f'] ++ ws ++ ['-', 'r'])

theorem litThenB_iff (t : List Char) (k : List Char → Bool) (cs : List Char) :
    litThenB t k cs = true ↔ ∃ rest, cs = t ++ rest ∧ k rest = true := by
  induction t generalizing cs with
  | nil => simp [litThenB]
  | cons a t1 ih =>
    cases cs with
    | nil => simp [litThenB]
    | cons c cs1 =>
      simp only [litThenB, Bool.and_eq_true, decide_eq_true_eq, ih, List.cons_append,
        List.cons.injEq]
      constructor
      · rintro ⟨rfl, rest, rfl, hk⟩
        exact ⟨rest, ⟨rfl, rfl⟩, hk⟩
      · rintro ⟨rest, ⟨rfl, rfl⟩, hk⟩
        exact ⟨rfl, rest, rfl, hk⟩

theorem spacesThen_iff (k : List Char → Bool) (cs : List Char) :
    spacesThen k cs = true ↔ ∃ ws rest, cs = ws ++ rest ∧ Spaces1 ws ∧ k rest = true := by
  induction cs with
  | nil =>
    simp only [spacesThen, Bool.false_eq_true, false_iff]
    rintro ⟨ws, rest, h, ⟨hne, _⟩, _⟩
    exact hne (List.append_eq_nil.mp h.symm).1
  | cons c cs1 ih =>
    simp only [spacesThen, Bool.and_eq_true, Bool.or_eq_true, ih]
    constructor
    · rintro ⟨hc, hk | ⟨ws, rest, rfl, hws, hk⟩⟩
      · exact ⟨[c], cs1, rfl, ⟨List.cons_ne_nil c [], by simpa using hc⟩, hk⟩
      · refine ⟨c :: ws, rest, rfl, ⟨List.cons_ne_nil c _, ?_⟩, hk⟩
        intro x hx
        rcases List.mem_cons.mp hx with rfl | hx
        · exact hc
        · exact hws.2 x hx
    · rintro ⟨ws, rest, heq, ⟨hne, hall⟩, hk⟩
      cases ws with
      | nil => exact absurd rfl hne
      | cons w ws1 =>
        rw [List.cons_append, List.cons.injEq] at heq
        obtain ⟨rfl, rfl⟩ := heq
        refine ⟨hall c (List.mem_cons_self c ws1), ?_⟩
        cases ws1 with
        | nil => exact Or.inl hk
        | cons w1 ws2 =>
          refine Or.inr ⟨w1 :: ws2, rest, rfl, ⟨List.cons_ne_nil w1 ws2, ?_⟩, hk⟩
          intro x hx
          exact hall x (List.mem_cons_of_mem c hx)

theorem flagsThen_iff (k : List Char → Bool) (cs : List Char) :
    flagsThen k cs = true ↔ ∃ fl rest, cs = fl ++ rest ∧ FlagTok fl ∧ k rest = true := by
  simp only [flagsThen, Bool.or_eq_true, litThenB_iff, spacesThen_iff]
  constructor
  · rintro (((⟨rest, rfl, hk⟩ | ⟨rest, rfl, hk⟩) |
        ⟨r1, rfl, ws, r2, rfl, hws, rest, rfl, hk⟩) |
        ⟨r1, rfl, ws, r2, rfl, hws, rest, rfl, hk⟩)
    · exact ⟨['-', 'r', 'f'], rest, rfl, Or.inl rfl, hk⟩
    · exact ⟨['-', 'f', 'r'], rest, rfl, Or.inr (Or.inl rfl), hk⟩
    · exact ⟨['-', 'r'] ++ ws ++ ['-', 'f'], rest, by simp, Or.inr (Or.inr (Or.inl ⟨ws, hws, rfl⟩)), hk⟩
    · exact ⟨['-', 'f'] ++ ws ++ ['-', 'r'], rest, by simp, Or.inr (Or.inr (Or.inr ⟨ws, hws, rfl⟩)), hk⟩
  · rintro ⟨fl, rest, rfl, (rfl | rfl | ⟨ws, hws, rfl⟩ | ⟨ws, hws, rfl⟩), hk⟩
    · exact Or.inl (Or.inl (Or.inl ⟨rest, rfl, hk⟩))
    · exact Or.inl (Or.inl (Or.inr ⟨rest, rfl, hk⟩))
    · exact Or.inl (Or.inr ⟨ws ++ ['-', 'f'] ++ rest, by simp, ws, ['-', 'f'] ++ rest, by simp,
        hws, rest, rfl, hk⟩)
    · exact Or.inr ⟨ws ++ ['-', 'r'] ++ rest, by simp, ws, ['-', 'r'] ++ rest, by simp,
        hws, rest, rfl, hk⟩

/-- The language of the optional directory group `(\S+/)?`: empty, or a
nonempty run of non-space characters followed by `/`. -/
def DirOpt (dir : List Char) : Prop :=
  dir = [] ∨ ∃ a, dir = a ++ ['/'] ∧ a ≠ [] ∧ ∀ c ∈ a, pySpace c = false

theorem slashThen_iff (k : List Char → Bool) (cs : List Char) :
    slashThen k cs = true ↔
      ∃ a rest, cs = a ++ '/' :: rest ∧ (∀ c ∈ a, pySpace c = false) ∧ k rest = true := by
  induction cs with
  | nil =>
    simp only [slashThen, Bool.false_eq_true, false_iff]
    rintro ⟨a, rest, h, -, -⟩
    exact List.cons_ne_nil '/' rest (List.append_eq_nil.mp h.symm).2
  | cons c cs1 ih =>
    simp only [slashThen, Bool.or_eq_true, Bool.and_eq_true, decide_eq_true_eq,
      Bool.not_eq_true', ih]
    constructor
    · rintro (⟨rfl, hk⟩ | ⟨hc, a, rest, rfl, hall, hk⟩)
      · exact ⟨[], cs1, rfl, by simp, hk⟩
      · refine ⟨c :: a, rest, rfl, ?_, hk⟩
        intro x hx
        rcases List.mem_cons.mp hx with rfl | hx
        · exact hc
        · exact hall x hx
    · rintro ⟨a, rest, heq, hall, hk⟩
      cases a with
      | nil =>
        rw [List.nil_append, List.cons.injEq] at heq
        obtain ⟨rfl, rfl⟩ := heq
        exact Or.inl ⟨rfl, hk⟩
      | cons a0 a1 =>
        rw [List.cons_append, List.cons.injEq] at heq
        obtain ⟨rfl, rfl⟩ := heq
        exact Or.inr ⟨hall c (List.mem_cons_self c a1), a1, rest, rfl,
          fun x hx => hall x (List.mem_cons_of_mem c hx), hk⟩

theorem dirThen_iff (k : List Char → Bool) (cs : List Char) :
    dirThen k cs = true ↔
      ∃ p rest, cs = p ++ rest ∧
        (∃ a, p = a ++ ['/'] ∧ a ≠ [] ∧ ∀ c ∈ a, pySpace c = false) ∧ k rest = true := by
  cases cs with
  | nil =>
    simp only [dirThen, Bool.false_eq_true, false_iff]
    rintro ⟨p, rest, h, ⟨a, rfl, -, -⟩, -⟩
    have := List.append_eq_nil.mp h.symm
    exact List.cons_ne_nil '/' [] (List.append_eq_nil.mp this.1).2
  | cons c cs1 =>
    simp only [dirThen, Bool.and_eq_true, Bool.not_eq_true', slashThen_iff]
    constructor
    · rintro ⟨hc, a, rest, rfl, hall, hk⟩
      refine ⟨(c :: a) ++ ['/'], rest, by simp, ⟨c :: a, rfl, List.cons_ne_nil c a, ?_⟩, hk⟩
      intro x hx
      rcases List.mem_cons.mp hx with rfl | hx
      · exact hc
      · exact hall x hx
    · rintro ⟨p, rest, heq, ⟨a, rfl, hne, hall⟩, hk⟩
      cases a with
      | nil => exact absurd rfl hne
      | cons a0 a1 =>
        rw [List.append_assoc, List.cons_append, List.cons.injEq] at heq
        obtain ⟨rfl, rfl⟩ := heq
        exact ⟨hall c (List.mem_cons_self c a1), a1, rest, by simp,
          fun x hx => hall x (List.mem_cons_of_mem c hx), hk⟩

theorem litThen_iff (t : List Char) (k : Char → List Char → Bool) (prev : Char) (cs : List Char) :
    litThen t k prev cs = true ↔ ∃ rest, cs = t ++ rest ∧ k (t.getLastD prev) rest = true := by
  induction t generalizing prev cs with
  | nil => simp [litThen, List.getLastD]
  | cons a t1 ih =>
    cases cs with
    | nil => simp [litThen]
    | cons c cs1 =>
      simp only [litThen, Bool.and_eq_true, decide_eq_true_eq, ih, List.cons_append,
        List.cons.injEq, List.getLastD_cons]
      constructor
      · rintro ⟨rfl, rest, rfl, hk⟩
        exact ⟨rest, ⟨rfl, rfl⟩, hk⟩
      · rintro ⟨rest, ⟨rfl, rfl⟩, hk⟩
        exact ⟨rfl, rest, rfl, hk⟩

theorem wordBoundaryEnd_getLastD (t post : List Char) (prev : Char)
    (hprev : pyWord prev = false) :
    wordBoundaryEnd (t.getLastD prev) post = endsAtWordBoundary t post := by
  rw [wordBoundaryEnd, endsAtWordBoundary, List.getLastD_eq_getLast?, lastWord]
  cases h : t.getLast? with
  | none => simp [hprev]
  | some c => simp

theorem targetThen_iff (t : List Char) (prev : Char) (cs : List Char)
    (hprev : pyWord prev = false) :
    targetThen t prev cs = true ↔
      ∃ post, cs = t ++ post ∧ endsAtWordBoundary t post = true := by
  rw [targetThen, litThen_iff]
  constructor
  · rintro ⟨post, rfl, hb⟩
    exact ⟨post, rfl, by rwa [wordBoundaryEnd_getLastD t post prev hprev] at hb⟩
  · rintro ⟨post, rfl, hb⟩
    exact ⟨post, rfl, by rwa [wordBoundaryEnd_getLastD t post prev hprev]⟩

theorem safeRmTail_iff (t cs : List Char) :
    safeRmTail t cs = true ↔
      ∃ dir post, cs = dir ++ t ++ post ∧ DirOpt dir ∧ endsAtWordBoundary t post = true := by
  rw [safeRmTail, Bool.or_eq_true, targetThen_iff t ' ' cs (by decide), dirThen_iff]
  constructor
  · rintro (⟨post, rfl, hb⟩ | ⟨p, rest, rfl, hp, hk⟩)
    · exact ⟨[], post, rfl, Or.inl rfl, hb⟩
    · rw [targetThen_iff t '/' rest (by decide)] at hk
      obtain ⟨post, rfl, hb⟩ := hk
      exact ⟨p, post, by simp, Or.inr hp, hb⟩
  · rintro ⟨dir, post, rfl, hdir | hdir, hb⟩
    · subst hdir
      exact Or.inl ⟨post, rfl, hb⟩
    · refine Or.inr ⟨dir, t ++ post, by simp, hdir, ?_⟩
      rw [targetThen_iff t '/' (t ++ post) (by decide)]
      exact ⟨post, rfl, hb⟩

/-- Declarative reading of one attempt of the safe-target pattern at the
start of `cs`, the decomposition described by the specification. -/
def SafeRmSpecAt (t cs : List Char) : Prop :=
  ∃ ws1 fl ws2 dir post,
    cs = ['r', 'm'] ++ ws1 ++ fl ++ ws2 ++ dir ++ t ++ post ∧
    Spaces1 ws1 ∧ FlagTok fl ∧ Spaces1 ws2 ∧ DirOpt dir ∧
    endsAtWordBoundary t post = true

theorem safeRmAt_iff (t cs : List Char) :
    safeRmAt t cs = true ↔ SafeRmSpecAt t cs := by
  rw [safeRmAt, litThenB_iff, SafeRmSpecAt]
  constructor
  · rintro ⟨r1, rfl, hk⟩
    rw [spacesThen_iff] at hk
    obtain ⟨ws1, r2, rfl, hws1, hk⟩ := hk
    rw [flagsThen_iff] at hk
    obtain ⟨fl, r3, rfl, hfl, hk⟩ := hk
    rw [spacesThen_iff] at hk
    obtain ⟨ws2, r4, rfl, hws2, hk⟩ := hk
    rw [safeRmTail_iff] at hk
    obtain ⟨dir, post, rfl, hdir, hb⟩ := hk
    exact ⟨ws1, fl, ws2, dir, post, by simp, hws1, hfl, hws2, hdir, hb⟩
  · rintro ⟨ws1, fl, ws2, dir, post, rfl, hws1, hfl, hws2, hdir, hb⟩
    refine ⟨ws1 ++ fl ++ ws2 ++ dir ++ t ++ post, by simp, ?_⟩
    rw [spacesThen_iff]
    refine ⟨ws1, fl ++ ws2 ++ dir ++ t ++ post, by simp, hws1, ?_⟩
    rw [flagsThen_iff]
    refine ⟨fl, ws2 ++ dir ++ t ++ post, by simp, hfl, ?_⟩
    rw [spacesThen_iff]
    refine ⟨ws2, dir ++ t ++ post, by simp, hws2, ?_⟩
    rw [safeRmTail_iff]
    exact ⟨dir, post, by simp, hdir, hb⟩

theorem searchSafeRm_iff (t cs : List Char) :
    searchSafeRm t cs = true ↔ ∃ pre rest, cs = pre ++ rest ∧ SafeRmSpecAt t rest := by
  induction cs with
  | nil =>
    rw [searchSafeRm, safeRmAt_iff]
    constructor
    · intro h
      exact ⟨[], [], rfl, h⟩
    · rintro ⟨pre, rest, heq, hat⟩
      obtain ⟨rfl, rfl⟩ := List.append_eq_nil.mp heq.symm
      exact hat
  | cons c cs1 ih =>
    rw [searchSafeRm, Bool.or_eq_true, safeRmAt_iff, ih]
    constructor
    · rintro (hat | ⟨pre, rest, rfl, hat⟩)
      · exact ⟨[], c :: cs1, rfl, hat⟩
      · exact ⟨c :: pre, rest, rfl, hat⟩
    · rintro ⟨pre, rest, heq, hat⟩
      cases pre with
      | nil =>
        rw [List.nil_append] at heq
        exact Or.inl (heq ▸ hat)
      | cons p0 p1 =>
        rw [List.cons_append, List.cons.injEq] at heq
        obtain ⟨rfl, rfl⟩ := heq
        exact Or.inr ⟨p1, rest, rfl, hat⟩

/-- Declarative reading of the whole allowlist override, as the specification
states it: the command contains `rm`, whitespace, one of the four flag
spellings, whitespace, an optional directory prefix ending in `/`, then an
allowlisted target ending at a word boundary. -/
def OverrideSpec (safe : List (List Char)) (cmd : List Char) : Prop :=
  ∃ t ∈ safe, ∃ pre ws1 fl ws2 dir post,
    cmd = pre ++ ['r', 'm'] ++ ws1 ++ fl ++ ws2 ++ dir ++ t ++ post ∧
    Spaces1 ws1 ∧ FlagTok fl ∧ Spaces1 ws2 ∧ DirOpt dir ∧
    endsAtWordBoundary t post = true

theorem overrideApplies_iff (safe : List (List Char)) (cmd : List Char) :
    overrideApplies safe cmd = true ↔ OverrideSpec safe cmd := by
  rw [overrideApplies, List.any_eq_true]
  constructor
  · rintro ⟨t, ht, hs⟩
    rw [searchSafeRm_iff] at hs
    obtain ⟨pre, rest, rfl, ws1, fl, ws2, dir, post, rfl, h1, h2, h3, h4, h5⟩ := hs
    exact ⟨t, ht, pre, ws1, fl, ws2, dir, post, by simp, h1, h2, h3, h4, h5⟩
  · rintro ⟨t, ht, pre, ws1, fl, ws2, dir, post, rfl, h1, h2, h3, h4, h5⟩
    refine ⟨t, ht, ?_⟩
    rw [searchSafeRm_iff]
    exact ⟨pre, ['r', 'm'] ++ ws1 ++ fl ++ ws2 ++ dir ++ t ++ post, by simp,
      ws1, fl, ws2, dir, post, rfl, h1, h2, h3, h4, h5⟩

/-- Whether the first character of a string is whitespace
(`false` on the empty string). -/
def headSpace : List Char → Bool
  | [] => false
  | c :: _ => pySpace c

theorem takeBody_some (q : Char) (cs b r : List Char) (h : takeBody q cs = some (b, r)) :
    cs = b ++ q :: r ∧ ∀ c ∈ b, c ≠ q ∧ c ≠ '\n' := by
  induction cs generalizing b with
  | nil => exact absurd h (by simp [takeBody])
  | cons c cs1 ih =>
    rw [takeBody] at h
    by_cases hcq : c = q
    · rw [if_pos hcq] at h
      simp only [Option.some.injEq, Prod.mk.injEq] at h
      obtain ⟨rfl, rfl⟩ := h
      subst hcq
      exact ⟨by simp, by simp⟩
    · rw [if_neg hcq] at h
      by_cases hcn : c = '\n'
      · rw [if_pos hcn] at h
        exact absurd h (by simp)
      · rw [if_neg hcn] at h
        cases htb : takeBody q cs1 with
        | none => rw [htb] at h; exact absurd h (by simp)
        | some br =>
          obtain ⟨b1, r1⟩ := br
          rw [htb] at h
          simp only [Option.some.injEq, Prod.mk.injEq] at h
          obtain ⟨rfl, rfl⟩ := h
          obtain ⟨heq, hall⟩ := ih b1 htb
          subst heq
          refine ⟨by simp, ?_⟩
          intro x hx
          rcases List.mem_cons.mp hx with rfl | hx
          · exact ⟨hcq, hcn⟩
          · exact hall x hx

theorem takeBody_of_decomp (q : Char) (b r : List Char)
    (hall : ∀ c ∈ b, c ≠ q ∧ c ≠ '\n') :
    takeBody q (b ++ q :: r) = some (b, r) := by
  induction b with
  | nil => simp [takeBody]
  | cons c b1 ih =>
    obtain ⟨hcq, hcn⟩ := hall c (List.mem_cons_self c b1)
    rw [List.cons_append, takeBody, if_neg hcq, if_neg hcn,
      ih (fun x hx => hall x (List.mem_cons_of_mem c hx))]

theorem headSpace_dropWhile (cs : List Char) :
    headSpace (cs.dropWhile pySpace) = false := by
  induction cs with
  | nil => rfl
  | cons c cs1 ih =>
    rw [List.dropWhile_cons]
    by_cases hc : pySpace c
    · rw [if_pos hc]; exact ih
    · rw [if_neg hc]; simpa [headSpace] using hc

theorem dropSpaces1_some (cs r : List Char) (h : dropSpaces1 cs = some r) :
    ∃ ws, Spaces1 ws ∧ cs = ws ++ r ∧ headSpace r = false := by
  cases cs with
  | nil => exact absurd h (by simp [dropSpaces1])
  | cons c cs1 =>
    rw [dropSpaces1] at h
    by_cases hc : pySpace c
    · rw [if_pos hc] at h
      simp only [Option.some.injEq] at h
      subst h
      refine ⟨c :: cs1.takeWhile pySpace, ⟨List.cons_ne_nil _ _, ?_⟩, ?_, headSpace_dropWhile cs1⟩
      · intro x hx
        rcases List.mem_cons.mp hx with rfl | hx
        · exact hc
        · exact List.mem_takeWhile_imp hx
      · rw [List.cons_append, List.takeWhile_append_dropWhile]
    · rw [if_neg hc] at h
      exact absurd h (by simp)

theorem dropWhile_of_headSpace (r : List Char) (hr : headSpace r = false) :
    r.dropWhile pySpace = r := by
  cases r with
  | nil => rfl
  | cons c r1 =>
    rw [List.dropWhile_cons, if_neg]
    simpa [headSpace] using hr

theorem dropWhile_spaces_append (ws r : List Char)
    (hall : ∀ c ∈ ws, pySpace c = true) (hr : headSpace r = false) :
    List.dropWhile pySpace (ws ++ r) = r := by
  induction ws with
  | nil => exact dropWhile_of_headSpace r hr
  | cons w ws1 ih =>
    rw [List.cons_append, List.dropWhile_cons, if_pos (hall w (List.mem_cons_self w ws1))]
    exact ih (fun x hx => hall x (List.mem_cons_of_mem w hx))

theorem dropSpaces1_of_decomp (ws r : List Char) (hws : Spaces1 ws)
    (hr : headSpace r = false) :
    dropSpaces1 (ws ++ r) = some r := by
  obtain ⟨hne, hall⟩ := hws
  cases ws with
  | nil => exact absurd rfl hne
  | cons w ws1 =>
    rw [List.cons_append, dropSpaces1, if_pos (hall w (List.mem_cons_self w ws1))]
    rw [dropWhile_spaces_append ws1 r (fun x hx => hall x (List.mem_cons_of_mem w hx)) hr]

theorem matchShTok_some (cs r : List Char) (h : matchShTok cs = some r) :
    cs = ['s', 'h'] ++ r ∨ cs = ['b', 'a', 's', 'h'] ++ r := by
  unfold matchShTok at h
  split at h
  · simp only [Option.some.injEq] at h
    subst h
    exact Or.inr rfl
  · simp only [Option.some.injEq] at h
    subst h
    exact Or.inl rfl
  · exact absurd h (by simp)

theorem matchShTok_sh (r : List Char) : matchShTok (['s', 'h'] ++ r) = some r := rfl

theorem matchShTok_bash (r : List Char) : matchShTok (['b', 'a', 's', 'h'] ++ r) = some r := rfl

theorem matchDashC_some (cs r : List Char) (h : matchDashC cs = some r) :
    cs = ['-', 'c'] ++ r := by
  unfold matchDashC at h
  split at h
  · simp only [Option.some.injEq] at h
    subst h
    rfl
  · exact absurd h (by simp)

theorem matchDashC_decomp (r : List Char) : matchDashC (['-', 'c'] ++ r) = some r := rfl

theorem matchQuote_some (cs b r : List Char) (h : matchQuote cs = some (b, r)) :
    ∃ q, (q = '\'' ∨ q = '"') ∧ (∀ c ∈ b, c ≠ q ∧ c ≠ '\n') ∧ cs = q :: (b ++ q :: r) := by
  cases cs with
  | nil => exact absurd h (by simp [matchQuote])
  | cons q r5 =>
    rw [matchQuote] at h
    by_cases hq : q = '\'' ∨ q = '"'
    · rw [if_pos hq] at h
      obtain ⟨heq, hall⟩ := takeBody_some q r5 b r h
      exact ⟨q, hq, hall, by rw [heq]⟩
    · rw [if_neg hq] at h
      exact absurd h (by simp)

/-- A wrapper occurrence starting at the head of `cs`, capturing `body`,
with `rest` remaining: declarative reading of the wrapper pattern
`(?:ba)?sh\s+-c\s+(['"])(.*?)\1`. -/
def WrapperDecomp (cs body rest : List Char) : Prop :=
  ∃ tok ws1 ws2 q,
    (tok = ['s', 'h'] ∨ tok = ['b', 'a', 's', 'h']) ∧ Spaces1 ws1 ∧ Spaces1 ws2 ∧
    (q = '\'' ∨ q = '"') ∧ (∀ c ∈ body, c ≠ q ∧ c ≠ '\n') ∧
    cs = tok ++ ws1 ++ ['-', 'c'] ++ ws2 ++ q :: (body ++ q :: rest)

theorem matchWrapperAt_some (cs b after : List Char)
    (h : matchWrapperAt cs = some (b, after)) : WrapperDecomp cs b after := by
  rw [matchWrapperAt] at h
  simp only [Option.bind_eq_some] at h
  obtain ⟨r1, h1, r2, h2, r3, h3, r4, h4, h5⟩ := h
  obtain ⟨ws1, hws1, heq2, -⟩ := dropSpaces1_some r1 r2 h2
  obtain ⟨ws2, hws2, heq4, -⟩ := dropSpaces1_some r3 r4 h4
  obtain ⟨q, hq, hall, heq5⟩ := matchQuote_some r4 b after h5
  have heq3 := matchDashC_some r2 r3 h3
  rcases matchShTok_some cs r1 h1 with heq1 | heq1
  · exact ⟨['s', 'h'], ws1, ws2, q, Or.inl rfl, hws1, hws2, hq, hall,
      by rw [heq1, heq2, heq3, heq4, heq5]; simp⟩
  · exact ⟨['b', 'a', 's', 'h'], ws1, ws2, q, Or.inr rfl, hws1, hws2, hq, hall,
      by rw [heq1, heq2, heq3, heq4, heq5]; simp⟩

theorem matchWrapperAt_of_decomp (cs b after : List Char)
    (h : WrapperDecomp cs b after) : matchWrapperAt cs = some (b, after) := by
  obtain ⟨tok, ws1, ws2, q, htok, hws1, hws2, hq, hall, rfl⟩ := h
  have hq2 : pySpace q = false := by rcases hq with rfl | rfl <;> rfl
  have hstep1 : matchShTok (tok ++ ws1 ++ ['-', 'c'] ++ ws2 ++ q :: (b ++ q :: after)) =
      some (ws1 ++ (['-', 'c'] ++ (ws2 ++ q :: (b ++ q :: after)))) := by
    rcases htok with rfl | rfl
    · rw [show ['s', 'h'] ++ ws1 ++ ['-', 'c'] ++ ws2 ++ q :: (b ++ q :: after) =
        ['s', 'h'] ++ (ws1 ++ (['-', 'c'] ++ (ws2 ++ q :: (b ++ q :: after)))) by simp]
      exact matchShTok_sh _
    · rw [show ['b', 'a', 's', 'h'] ++ ws1 ++ ['-', 'c'] ++ ws2 ++ q :: (b ++ q :: after) =
        ['b', 'a', 's', 'h'] ++ (ws1 ++ (['-', 'c'] ++ (ws2 ++ q :: (b ++ q :: after)))) by simp]
      exact matchShTok_bash _
  have hstep2 : dropSpaces1 (ws1 ++ (['-', 'c'] ++ (ws2 ++ q :: (b ++ q :: after)))) =
      some (['-', 'c'] ++ (ws2 ++ q :: (b ++ q :: after))) :=
    dropSpaces1_of_decomp ws1 _ hws1 rfl
  have hstep3 : matchDashC (['-', 'c'] ++ (ws2 ++ q :: (b ++ q :: after))) =
      some (ws2 ++ q :: (b ++ q :: after)) := matchDashC_decomp _
  have hstep4 : dropSpaces1 (ws2 ++ q :: (b ++ q :: after)) =
      some (q :: (b ++ q :: after)) :=
    dropSpaces1_of_decomp ws2 _ hws2 (by simp [headSpace, hq2])
  have hstep5 : matchQuote (q :: (b ++ q :: after)) = some (b, after) := by
    rw [matchQuote, if_pos hq]
    exact takeBody_of_decomp q b after hall
  rw [matchWrapperAt, hstep1, Option.some_bind, hstep2, Option.some_bind, hstep3,
    Option.some_bind, hstep4, Option.some_bind, hstep5]

theorem matchWrapperAt_length (cs b after : List Char)
    (h : matchWrapperAt cs = some (b, after)) : after.length < cs.length := by
  obtain ⟨tok, ws1, ws2, q, htok, hws1, hws2, hq, hall, rfl⟩ := matchWrapperAt_some cs b after h
  have htl : 2 ≤ tok.length := by rcases htok with rfl | rfl <;> simp
  simp only [List.length_append, List.length_cons]
  omega

/-- Declarative description of the finditer scan: bodies of the wrapper
occurrences, found left to right; a position is skipped exactly when no
wrapper occurrence starts there, and after an occurrence the scan resumes
at its end (matches do not overlap). -/
inductive Extracts : List Char → List (List Char) → Prop where
  | nil : Extracts [] []
  | skip (c : Char) (cs : List Char) (bs : List (List Char)) :
      (∀ b r, ¬ WrapperDecomp (c :: cs) b r) → Extracts cs bs → Extracts (c :: cs) bs
  | found (cs body rest : List Char) (bs : List (List Char)) :
      WrapperDecomp cs body rest → Extracts rest bs → Extracts cs (body :: bs)

theorem extractFuel_extracts (n : Nat) :
    ∀ cs : List Char, cs.length ≤ n → Extracts cs (extractFuel n cs) := by
  induction n with
  | zero =>
    intro cs h
    have hnil : cs = [] := List.eq_nil_of_length_eq_zero (Nat.le_zero.mp h)
    subst hnil
    exact Extracts.nil
  | succ n ih =>
    intro cs h
    cases cs with
    | nil => exact Extracts.nil
    | cons c rest =>
      rw [extractFuel]
      cases hm : matchWrapperAt (c :: rest) with
      | some ba =>
        obtain ⟨b, a⟩ := ba
        have hlen : a.length ≤ n := by
          have := matchWrapperAt_length _ _ _ hm
          simp only [List.length_cons] at this h
          omega
        exact Extracts.found _ b a _ (matchWrapperAt_some _ _ _ hm) (ih a hlen)
      | none =>
        have hlen : rest.length ≤ n := by
          simp only [List.length_cons] at h
          omega
        refine Extracts.skip c rest _ (fun b r hd => ?_) (ih rest hlen)
        rw [matchWrapperAt_of_decomp _ _ _ hd] at hm
        exact Option.noConfusion hm

theorem firstWarn_eq_some (text m : List Char) (rules : List WarnRule) :
    firstWarn text rules = some m ↔
      ∃ pre w post, rules = pre ++ w :: post ∧ w.regex text = true ∧ w.message = m ∧
        ∀ u ∈ pre, u.regex text = false := by
  induction rules with
  | nil =>
    simp only [firstWarn, reduceCtorEq, false_iff]
    rintro ⟨pre, w, post, h, -⟩
    exact List.cons_ne_nil w post (List.append_eq_nil.mp h.symm).2
  | cons w0 rest ih =>
    rw [firstWarn]
    by_cases h0 : w0.regex text
    · rw [if_pos h0]
      simp only [Option.some.injEq]
      constructor
      · rintro rfl
        exact ⟨[], w0, rest, rfl, h0, rfl, by simp⟩
      · rintro ⟨pre, w, post, heq, hw, rfl, hall⟩
        cases pre with
        | nil =>
          rw [List.nil_append, List.cons.injEq] at heq
          rw [heq.1]
        | cons p0 p1 =>
          rw [List.cons_append, List.cons.injEq] at heq
          obtain ⟨rfl, -⟩ := heq
          exact absurd h0 (by simp [hall w0 (List.mem_cons_self w0 p1)])
    · rw [if_neg h0, ih]
      constructor
      · rintro ⟨pre, w, post, rfl, hw, rfl, hall⟩
        refine ⟨w0 :: pre, w, post, rfl, hw, rfl, ?_⟩
        intro u hu
        rcases List.mem_cons.mp hu with rfl | hu
        · exact Bool.not_eq_true _ ▸ by simpa using h0
        · exact hall u hu
      · rintro ⟨pre, w, post, heq, hw, rfl, hall⟩
        cases pre with
        | nil =>
          rw [List.nil_append, List.cons.injEq] at heq
          obtain ⟨rfl, rfl⟩ := heq
          exact absurd hw (by simp [h0])
        | cons p0 p1 =>
          rw [List.cons_append, List.cons.injEq] at heq
          obtain ⟨rfl, rfl⟩ := heq
          exact ⟨p1, w, post, rfl, hw, rfl, fun u hu => hall u (List.mem_cons_of_mem w0 hu)⟩

theorem firstWarn_eq_none (text : List Char) (rules : List WarnRule) :
    firstWarn text rules = none ↔ ∀ w ∈ rules, w.regex text = false := by
  induction rules with
  | nil => simp [firstWarn]
  | cons w0 rest ih =>
    rw [firstWarn]
    by_cases h0 : w0.regex text
    · rw [if_pos h0]
      simp [h0]
    · rw [if_neg h0, ih]
      constructor
      · intro hall u hu
        rcases List.mem_cons.mp hu with rfl | hu
        · exact Bool.not_eq_true _ ▸ by simpa using h0
        · exact hall u hu
      · intro hall u hu
        exact hall u (List.mem_cons_of_mem w0 hu)

theorem firstInnerDeny_eq_some (rules : Rules) (l : List (List Char)) (r : List Char) :
    firstInnerDeny rules l = some r ↔
      ∃ pre inner post, l = pre ++ inner :: post ∧ check_deny inner rules = some r ∧ r ≠ [] ∧
        ∀ j ∈ pre, truthyReason (check_deny j rules) = false := by
  induction l with
  | nil =>
    simp only [firstInnerDeny, reduceCtorEq, false_iff]
    rintro ⟨pre, inner, post, h, -⟩
    exact List.cons_ne_nil inner post (List.append_eq_nil.mp h.symm).2
  | cons i0 rest ih =>
    rw [firstInnerDeny]
    cases hc : check_deny i0 rules with
    | some r0 =>
      cases r0 with
      | nil =>
        rw [ih]
        constructor
        · rintro ⟨pre, inner, post, rfl, hr, hne, hall⟩
          refine ⟨i0 :: pre, inner, post, rfl, hr, hne, ?_⟩
          intro j hj
          rcases List.mem_cons.mp hj with rfl | hj
          · rw [hc]; rfl
          · exact hall j hj
        · rintro ⟨pre, inner, post, heq, hr, hne, hall⟩
          cases pre with
          | nil =>
            rw [List.nil_append, List.cons.injEq] at heq
            obtain ⟨rfl, rfl⟩ := heq
            rw [hc] at hr
            exact absurd (Option.some.injEq _ _ ▸ hr).symm hne
          | cons p0 p1 =>
            rw [List.cons_append, List.cons.injEq] at heq
            obtain ⟨rfl, rfl⟩ := heq
            exact ⟨p1, inner, post, rfl, hr, hne,
              fun j hj => hall j (List.mem_cons_of_mem i0 hj)⟩
      | cons c cs =>
        simp only [Option.some.injEq]
        constructor
        · rintro rfl
          exact ⟨[], i0, rest, rfl, hc, List.cons_ne_nil c cs, by simp⟩
        · rintro ⟨pre, inner, post, heq, hr, hne, hall⟩
          cases pre with
          | nil =>
            rw [List.nil_append, List.cons.injEq] at heq
            obtain ⟨rfl, rfl⟩ := heq
            rw [hc] at hr
            exact (Option.some.injEq _ _ ▸ hr).symm ▸ rfl
          | cons p0 p1 =>
            rw [List.cons_append, List.cons.injEq] at heq
            obtain ⟨rfl, -⟩ := heq
            have := hall i0 (List.mem_cons_self i0 p1)
            rw [hc] at this
            exact absurd this (by simp [truthyReason])
    | none =>
      rw [ih]
      constructor
      · rintro ⟨pre, inner, post, rfl, hr, hne, hall⟩
        refine ⟨i0 :: pre, inner, post, rfl, hr, hne, ?_⟩
        intro j hj
        rcases List.mem_cons.mp hj with rfl | hj
        · rw [hc]; rfl
        · exact hall j hj
      · rintro ⟨pre, inner, post, heq, hr, hne, hall⟩
        cases pre with
        | nil =>
          rw [List.nil_append, List.cons.injEq] at heq
          obtain ⟨rfl, rfl⟩ := heq
          rw [hc] at hr
          exact Option.noConfusion hr
        | cons p0 p1 =>
          rw [List.cons_append, List.cons.injEq] at heq
          obtain ⟨rfl, rfl⟩ := heq
          exact ⟨p1, inner, post, rfl, hr, hne,
            fun j hj => hall j (List.mem_cons_of_mem i0 hj)⟩

theorem firstInnerDeny_eq_none (rules : Rules) (l : List (List Char)) :
    firstInnerDeny rules l = none ↔
      ∀ i ∈ l, truthyReason (check_deny i rules) = false := by
  induction l with
  | nil => simp [firstInnerDeny]
  | cons i0 rest ih =>
    rw [firstInnerDeny]
    cases hc : check_deny i0 rules with
    | some r0 =>
      cases r0 with
      | nil =>
        rw [ih]
        constructor
        · intro hall j hj
          rcases List.mem_cons.mp hj with rfl | hj
          · rw [hc]; rfl
          · exact hall j hj
        · intro hall j hj
          exact hall j (List.mem_cons_of_mem i0 hj)
      | cons c cs =>
        simp only [reduceCtorEq, false_iff]
        intro hall
        have := hall i0 (List.mem_cons_self i0 rest)
        rw [hc] at this
        exact absurd this (by simp [truthyReason])
    | none =>
      rw [ih]
      constructor
      · intro hall j hj
        rcases List.mem_cons.mp hj with rfl | hj
        · rw [hc]; rfl
        · exact hall j hj
      · intro hall j hj
        exact hall j (List.mem_cons_of_mem i0 hj)

theorem denyFirst_append (cmd : List Char) (safe : List (List Char))
    (d1 : List DenyRule) (r : DenyRule) (d2 : List DenyRule)
    (h1 : ∀ s ∈ d1, s.regex cmd = false) (h2 : r.regex cmd = true) :
    denyFirst cmd safe (d1 ++ r :: d2) =
      if r.reason = massReason then
        if overrideApplies safe cmd then none else some r.reason
      else some r.reason := by
  induction d1 with
  | nil =>
    rw [List.nil_append, denyFirst, if_pos h2]
  | cons s0 rest ih =>
    rw [List.cons_append, denyFirst, if_neg (by simp [h1 s0 (List.mem_cons_self s0 rest)])]
    exact ih (fun s hs => h1 s (List.mem_cons_of_mem s0 hs))

/-- Boolean substring search: the meaning of `re.search(p, s)` for a regex
that is a plain literal `p`; used to build concrete example rule sets. -/
def containsSub (pat : List Char) : List Char → Bool
  | [] => pat.isPrefixOf []
  | c :: cs => pat.isPrefixOf (c :: cs) || containsSub pat cs

theorem forall_mem_of_eq_nil {α : Type} (P : α → Prop) {l : List α} (h : l = []) :
    ∀ i ∈ l, P i := by
  subst h
  intro i hi
  exact absurd hi (List.not_mem_nil i)

/-- The mass-recursive-deletion rule of the concrete examples, with a
representative pattern matching `rm -rf` as a substring. -/
def massRule : DenyRule := ⟨containsSub "rm -rf".toList, massReason⟩

/-- A deny rule placed after the mass-deletion rule that matches any command
mentioning `node_modules`. -/
def laterRule : DenyRule := ⟨containsSub "node_modules".toList, "Deletes node_modules".toList⟩

/-- Rule set for the C1 counterexample: the mass rule, then a later deny
rule that also matches the command, with `node_modules` allowlisted. -/
def c1rules : Rules := ⟨[massRule, laterRule], [], [], ["node_modules".toList]⟩

/-- The C1 command: matches both deny rules, and its deletion target is
allowlisted. -/
def c1cmd : List Char := "rm -rf node_modules".toList

/-- C1 counterexample: for `rm -rf node_modules` the mass-deletion rule's
pattern matches, the allowlist override applies, and a later deny rule also
matches the command — yet `check_deny` returns `none` rather than the later
rule's reason: the evaluator stops with no deny instead of continuing to the
remaining deny rules. -/
theorem c1_counterexample :
    massRule.regex c1cmd = true ∧
    massRule.reason = massReason ∧
    overrideApplies c1rules.safe_rm_targets c1cmd = true ∧
    laterRule.regex c1cmd = true ∧
    check_deny c1cmd c1rules = none ∧
    check_deny c1cmd c1rules ≠ some laterRule.reason := by
  exact ⟨by decide, by decide, by decide, by decide, by decide, by decide⟩

/-- C1 (amended): when the first deny rule whose pattern matches the command
is the mass-recursive-deletion rule and the command contains a recognised
deletion of an allowlisted target, the Deny Evaluator returns no reason at
all — it stops immediately, without evaluating the remaining deny rules, so
a later matching deny rule does not produce its reason. -/
theorem c1_amended_override_stops (cmd : List Char) (d1 : List DenyRule)
    (mr : DenyRule) (d2 : List DenyRule) (wc wf : List WarnRule) (safe : List (List Char))
    (h1 : ∀ s ∈ d1, s.regex cmd = false) (h2 : mr.regex cmd = true)
    (h3 : mr.reason = massReason) (h4 : overrideApplies safe cmd = true) :
    check_deny cmd ⟨d1 ++ mr :: d2, wc, wf, safe⟩ = none := by
  show denyFirst cmd safe (d1 ++ mr :: d2) = none
  rw [denyFirst_append cmd safe d1 mr d2 h1 h2, if_pos h3, if_pos h4]

/-- Witness for the amended C1, at the counterexample's concrete input. -/
theorem c1_amended_witness :
    check_deny c1cmd ⟨[massRule, laterRule], [], [], ["node_modules".toList]⟩ = none :=
  c1_amended_override_stops c1cmd [] massRule [laterRule] [] [] ["node_modules".toList]
    (forall_mem_of_eq_nil _ rfl) (by decide) (by decide) (by decide)

/-- Rule set for the C3 concrete part: only the mass-deletion rule, with
`node_modules` allowlisted. -/
def c3rules : Rules := ⟨[massRule], [], [], ["node_modules".toList]⟩

/-- C3: the allowlist override applies to a command iff the command contains
`rm`, whitespace, one of the flag spellings `-rf`, `-fr`, `-r -f`, `-f -r`,
whitespace, an optional directory prefix of non-space characters ending in
`/`, then an allowlisted target ending at a word boundary; and for
`rm -rf /` with `safe_rm_targets = ["node_modules"]` the override does not
apply while the deletion deny rule does match and deny. -/
theorem c3_override_characterisation :
    (∀ safe cmd, overrideApplies safe cmd = true ↔ OverrideSpec safe cmd) ∧
    overrideApplies ["node_modules".toList] "rm -rf /".toList = false ∧
    check_deny "rm -rf /".toList c3rules = some massReason := by
  exact ⟨overrideApplies_iff, by decide, by decide⟩

/-- C4: deny-rule order is evaluation priority.  If no rule before `r`
matches the command, `r`'s pattern matches, and `r` is not subject to the
allowlist override, then the evaluator returns `r`'s reason — whatever the
rules after `r` are (in particular when a later rule also matches, and the
later rules are never consulted). -/
theorem c4_first_match_wins (cmd : List Char) (d1 : List DenyRule) (r : DenyRule)
    (d2 : List DenyRule) (wc wf : List WarnRule) (safe : List (List Char))
    (h1 : ∀ s ∈ d1, s.regex cmd = false) (h2 : r.regex cmd = true)
    (h3 : ¬(r.reason = massReason ∧ overrideApplies safe cmd = true)) :
    check_deny cmd ⟨d1 ++ r :: d2, wc, wf, safe⟩ = some r.reason := by
  show denyFirst cmd safe (d1 ++ r :: d2) = some r.reason
  rw [denyFirst_append cmd safe d1 r d2 h1 h2]
  by_cases hm : r.reason = massReason
  · rw [if_pos hm]
    have ho : overrideApplies safe cmd = false := by
      cases ho : overrideApplies safe cmd
      · rfl
      · exact absurd ⟨hm, ho⟩ h3
    simp [ho]
  · rw [if_neg hm]

/-- A first deny rule for the C4 witness. -/
def c4first : DenyRule := ⟨containsSub "curl".toList, "Network fetch".toList⟩

/-- A second deny rule for the C4 witness, matching the same command. -/
def c4second : DenyRule := ⟨containsSub "curl".toList, "Later reason".toList⟩

/-- Witness for C4: both rules match `curl example.com`; the first one's
reason is returned. -/
theorem c4_witness :
    check_deny "curl example.com".toList ⟨[c4first, c4second], [], [], []⟩ =
      some c4first.reason :=
  c4_first_match_wins "curl example.com".toList [] c4first [c4second] [] [] []
    (forall_mem_of_eq_nil _ rfl) (by decide) (by decide)

/-- C2: evaluation order of `check_bash`.  A (truthy) deny reason on the
full command wins; otherwise the first inner command with a truthy deny
reason (earlier inner commands not denied) yields a deny with the wrapper
suffix; otherwise, with no deny anywhere, the first matching `warn_commands`
rule on the full command yields its warning; otherwise the verdict is allow.
Inner commands never reach the warn stage: with every deny check clear, the
verdict depends only on the warn rules evaluated against the full command. -/
theorem c2_dispatch_order (cmd : List Char) (rules : Rules) :
    (∀ r, check_deny cmd rules = some r → r ≠ [] → check_bash cmd rules = .deny r) ∧
    (∀ pre inner post r,
        truthyReason (check_deny cmd rules) = false →
        extract_inner_commands cmd = pre ++ inner :: post →
        (∀ j ∈ pre, truthyReason (check_deny j rules) = false) →
        check_deny inner rules = some r → r ≠ [] →
        check_bash cmd rules = .deny (r ++ wrapperSuffix)) ∧
    (∀ pre w post,
        truthyReason (check_deny cmd rules) = false →
        (∀ i ∈ extract_inner_commands cmd, truthyReason (check_deny i rules) = false) →
        rules.warn_commands = pre ++ w :: post →
        (∀ u ∈ pre, u.regex cmd = false) →
        w.regex cmd = true →
        check_bash cmd rules = .warn w.message) ∧
    (truthyReason (check_deny cmd rules) = false →
        (∀ i ∈ extract_inner_commands cmd, truthyReason (check_deny i rules) = false) →
        (∀ w ∈ rules.warn_commands, w.regex cmd = false) →
        check_bash cmd rules = .allow) := by
  have hfall : ∀ h0 : truthyReason (check_deny cmd rules) = false,
      check_bash cmd rules =
        (match firstInnerDeny rules (extract_inner_commands cmd) with
          | some reason => Verdict.deny (reason ++ wrapperSuffix)
          | none =>
            match firstWarn cmd rules.warn_commands with
            | some m => Verdict.warn m
            | none => Verdict.allow) := by
    intro h0
    unfold check_bash
    cases hcd : check_deny cmd rules with
    | none => rfl
    | some r0 =>
      cases r0 with
      | nil => rfl
      | cons c cs =>
        rw [hcd] at h0
        exact absurd h0 (by simp [truthyReason])
  refine ⟨?_, ?_, ?_, ?_⟩
  · intro r h hne
    cases r with
    | nil => exact absurd rfl hne
    | cons c cs =>
      unfold check_bash
      rw [h]
  · intro pre inner post r h0 hex hpre hr hne
    rw [hfall h0, (firstInnerDeny_eq_some rules (extract_inner_commands cmd) r).mpr
      ⟨pre, inner, post, hex, hr, hne, hpre⟩]
  · intro pre w post h0 hinner heqw hpre hw
    rw [hfall h0, (firstInnerDeny_eq_none rules (extract_inner_commands cmd)).mpr hinner,
      (firstWarn_eq_some cmd w.message rules.warn_commands).mpr
        ⟨pre, w, post, heqw, hw, rfl, hpre⟩]
  · intro h0 hinner hwarn
    rw [hfall h0, (firstInnerDeny_eq_none rules (extract_inner_commands cmd)).mpr hinner,
      (firstWarn_eq_none cmd rules.warn_commands).mpr hwarn]

/-- Rule set whose single deny rule matches `rm -rf` commands. -/
def w2rules1 : Rules := ⟨[⟨containsSub "rm -rf".toList, "Dangerous deletion".toList⟩], [], [], []⟩

/-- Rule set whose single deny rule matches exactly the command `x`, so it
fires on the inner command of a wrapper but not on the wrapper itself. -/
def w2rules2 : Rules := ⟨[⟨fun s => s == "x".toList, "Inner bad".toList⟩], [], [], []⟩

/-- A warn-command rule for the C2 witness. -/
def w2warn : WarnRule := ⟨containsSub "git push".toList, "Careful".toList⟩

/-- Rule set with no deny rules and one warn-command rule. -/
def w2rules3 : Rules := ⟨[], [w2warn], [], []⟩

/-- The empty rule set. -/
def noRules : Rules := ⟨[], [], [], []⟩

/-- Witness for C2: one concrete command per stage — full-command deny,
inner-command deny with the wrapper suffix, warn, and allow. -/
theorem c2_witness :
    check_bash "rm -rf /".toList w2rules1 = .deny "Dangerous deletion".toList ∧
    check_bash "sh -c 'x'".toList w2rules2 = .deny ("Inner bad".toList ++ wrapperSuffix) ∧
    check_bash "git push -f".toList w2rules3 = .warn w2warn.message ∧
    check_bash "ls".toList noRules = .allow := by
  refine ⟨(c2_dispatch_order _ _).1 "Dangerous deletion".toList (by decide) (by decide),
    (c2_dispatch_order _ _).2.1 [] "x".toList [] "Inner bad".toList (by decide) (by decide)
      (forall_mem_of_eq_nil _ rfl) (by decide) (by decide),
    (c2_dispatch_order _ _).2.2.1 [] w2warn [] (by decide)
      (forall_mem_of_eq_nil _ (by decide)) rfl (forall_mem_of_eq_nil _ rfl) (by decide),
    (c2_dispatch_order _ _).2.2.2 (by decide) (forall_mem_of_eq_nil _ (by decide))
      (forall_mem_of_eq_nil _ rfl)⟩

/-- C5: `extract_inner_commands` realises the declarative finditer scan —
it returns exactly the bodies of the non-overlapping wrapper occurrences,
left to right, skipping a position only where no wrapper occurrence starts,
and the empty sequence when no wrapper pattern is present. -/
theorem c5_extract_inner_commands_spec (command : List Char) :
    Extracts command (extract_inner_commands command) :=
  extractFuel_extracts command.length command le_rfl

/-- C6: for file events (tool kind Read, Edit or Write) the emitted verdict
is never a deny; it is either allow, or the warning of the first `warn_files`
rule whose pattern matches the path. -/
theorem c6_file_events_never_deny (inp : HookInput) (rules : Rules)
    (hk : inp.tool_name = "Read".toList ∨ inp.tool_name = "Edit".toList ∨
      inp.tool_name = "Write".toList) :
    (∀ r, runHook (some inp) (some rules) ≠ .emit (.deny r)) ∧
    (runHook (some inp) (some rules) = .emit .allow ∨
      ∃ m, runHook (some inp) (some rules) = .emit (.warn m) ∧
        ∃ pre w post, rules.warn_files = pre ++ w :: post ∧ w.regex inp.file_path = true ∧
          w.message = m ∧ ∀ u ∈ pre, u.regex inp.file_path = false) := by
  have hnb : ¬ inp.tool_name = "Bash".toList := by
    rcases hk with h | h | h <;> rw [h] <;> decide
  rw [show runHook (some inp) (some rules) = .emit (dispatch inp rules) from rfl]
  unfold dispatch
  rw [if_neg hnb, if_pos hk]
  by_cases hp : inp.file_path ≠ []
  · rw [if_pos hp]
    unfold check_file
    cases hw : firstWarn inp.file_path rules.warn_files with
    | some m =>
      refine ⟨by simp, Or.inr ⟨m, rfl, ?_⟩⟩
      exact (firstWarn_eq_some inp.file_path m rules.warn_files).mp hw
    | none => exact ⟨by simp, Or.inl rfl⟩
  · rw [if_neg hp]
    exact ⟨by simp, Or.inl rfl⟩

/-- File event and rule set for the C6 witness. -/
def c6inp : HookInput := ⟨"Read".toList, [], "/home/user/.env".toList⟩

/-- Rule set warning on `.env` file access. -/
def c6rules : Rules := ⟨[], [], [⟨containsSub ".env".toList, "Env file".toList⟩], []⟩

/-- Witness for C6: a Read event is never denied. -/
theorem c6_witness :
    runHook (some c6inp) (some c6rules) ≠ .emit (.deny massReason) :=
  (c6_file_events_never_deny c6inp c6rules (Or.inl rfl)).1 massReason

/-- C7: an event whose tool kind is unrecognised, or whose command (for
`Bash`) or file path (for Read/Edit/Write) is empty, yields the allow
verdict — no output — whatever the rule set is. -/
theorem c7_unrecognised_allows (inp : HookInput) (rules : Rules)
    (h : (inp.tool_name ≠ "Bash".toList ∧ inp.tool_name ≠ "Read".toList ∧
            inp.tool_name ≠ "Edit".toList ∧ inp.tool_name ≠ "Write".toList) ∨
         (inp.tool_name = "Bash".toList ∧ inp.command = []) ∨
         ((inp.tool_name = "Read".toList ∨ inp.tool_name = "Edit".toList ∨
            inp.tool_name = "Write".toList) ∧ inp.file_path = [])) :
    runHook (some inp) (some rules) = .emit .allow := by
  show ProcResult.emit (dispatch inp rules) = .emit .allow
  unfold dispatch
  rcases h with ⟨h1, h2, h3, h4⟩ | ⟨h1, h2⟩ | ⟨h1, h2⟩
  · rw [if_neg h1, if_neg (by rintro (h | h | h); exacts [h2 h, h3 h, h4 h])]
  · rw [if_pos h1, if_neg (not_not_intro h2)]
  · have hnb : ¬ inp.tool_name = "Bash".toList := by
      rcases h1 with h | h | h <;> rw [h] <;> decide
    rw [if_neg hnb, if_pos h1, if_neg (not_not_intro h2)]

/-- Witness for C7: an unrecognised tool kind is allowed with no output. -/
theorem c7_witness :
    runHook (some ⟨"Task".toList, "x".toList, "y".toList⟩) (some noRules) = .emit .allow :=
  c7_unrecognised_allows ⟨"Task".toList, "x".toList, "y".toList⟩ noRules
    (Or.inl ⟨by decide, by decide, by decide, by decide⟩)

/-- C8: unparsable top-level input makes the process exit cleanly with no
output (the allow outcome), before the rule file is even consulted — so
never a deny, a warn, or a crash. -/
theorem c8_unparsable_input_allows (loaded : Option Rules) :
    runHook none loaded = .emit .allow := rfl

/-- C9: once the input envelope parsed, a failing rule-file load (missing,
unreadable or invalid file) crashes the process with the uncaught exception;
the outcome is never a silently emitted allow verdict. -/
theorem c9_load_failure_crashes (inp : HookInput) :
    runHook (some inp) none = .crash := rfl

/-- C10: the rule file is loaded before the tool kind is classified, so a
failing load crashes the process even for events that need no evaluation —
an unrecognised tool kind or an empty command/path — instead of yielding
the allow verdict those events would otherwise produce. -/
theorem c10_load_precedes_classification (inp : HookInput)
    (_h : (inp.tool_name ≠ "Bash".toList ∧ inp.tool_name ≠ "Read".toList ∧
            inp.tool_name ≠ "Edit".toList ∧ inp.tool_name ≠ "Write".toList) ∨
         (inp.tool_name = "Bash".toList ∧ inp.command = []) ∨
         ((inp.tool_name = "Read".toList ∨ inp.tool_name = "Edit".toList ∨
            inp.tool_name = "Write".toList) ∧ inp.file_path = [])) :
    runHook (some inp) none = .crash := rfl

/-- Witness for C10: load failure crashes even for an unrecognised kind. -/
theorem c10_witness :
    runHook (some ⟨"Task".toList, "x".toList, "y".toList⟩) none = .crash :=
  c10_load_precedes_classification ⟨"Task".toList, "x".toList, "y".toList⟩
    (Or.inl ⟨by decide, by decide, by decide, by decide⟩)
